import Mathlib

/- Verification development for the Nymble firmware host-side utility.
   The repository has two Python source files:
   - send.py: a serial send/receive session (send_data, receive_data and a
     __main__ block that sequences them over one serial handle);
   - bcount.py: a character bit-counting helper (count_bits_in_paragraph).
   Bytes and Unicode code points are modelled as Nat, wall-clock instants as
   Nat time units, and the floating-point throughput values as rationals.
   The serial channel is modelled by explicit schedules: for the receiver, a
   list of polling iterations each carrying the current time and the byte
   (if any) available on the port; for the transmitter, a function giving
   the line drained at a given loop index (if in_waiting was positive). -/

/-- A byte is a UTF-8 continuation byte (10xxxxxx), i.e. in [0x80, 0xC0). -/
def isCont (b : Nat) : Bool := decide (0x80 ≤ b ∧ b < 0xC0)

/-- Valid range for the first continuation byte of a 3-byte UTF-8 sequence,
given the lead byte (E0 forbids overlongs, ED forbids surrogates). -/
def cont3first (b b1 : Nat) : Bool :=
  if b = 0xE0 then decide (0xA0 ≤ b1 ∧ b1 < 0xC0)
  else if b = 0xED then decide (0x80 ≤ b1 ∧ b1 < 0xA0)
  else isCont b1

/-- Valid range for the first continuation byte of a 4-byte UTF-8 sequence,
given the lead byte (F0 forbids overlongs, F4 caps at U+10FFFF). -/
def cont4first (b b1 : Nat) : Bool :=
  if b = 0xF0 then decide (0x90 ≤ b1 ∧ b1 < 0xC0)
  else if b = 0xF4 then decide (0x80 ≤ b1 ∧ b1 < 0x90)
  else isCont b1

/-- Decode one UTF-8 sequence whose lead byte is `b` and whose following
bytes are the front of `rest`. Returns the decoded code point (or `none` on
an invalid or truncated sequence) together with how many bytes of `rest`
belong to the consumed (maximal valid) subpart. Missing bytes behave like
the value 0, which fails every continuation test. -/
def decodeFirst (b : Nat) (rest : List Nat) : Option Nat × Nat :=
  let b1 := rest.getD 0 0
  let b2 := rest.getD 1 0
  let b3 := rest.getD 2 0
  if b < 0x80 then (some b, 0)
  else if b < 0xC2 then (none, 0)
  else if b < 0xE0 then
    if isCont b1 then (some ((b - 0xC0) * 0x40 + (b1 - 0x80)), 1) else (none, 0)
  else if b < 0xF0 then
    if cont3first b b1 then
      if isCont b2 then
        (some ((b - 0xE0) * 0x1000 + (b1 - 0x80) * 0x40 + (b2 - 0x80)), 2)
      else (none, 1)
    else (none, 0)
  else if b < 0xF5 then
    if cont4first b b1 then
      if isCont b2 then
        if isCont b3 then
          (some ((b - 0xF0) * 0x40000 + (b1 - 0x80) * 0x1000 +
                 (b2 - 0x80) * 0x40 + (b3 - 0x80)), 3)
        else (none, 2)
      else (none, 1)
    else (none, 0)
  else (none, 0)

/-- Decoding loop with explicit fuel (any fuel at least the list length
gives the same result; the wrapper passes the length). Each step consumes
the lead byte plus the bytes of the maximal valid subpart after it. -/
def utf8DecodeLoop : Nat → List Nat → List Nat
  | _, [] => []
  | 0, _ :: _ => []
  | fuel + 1, b :: rest =>
    match decodeFirst b rest with
    | (some cp, k) => cp :: utf8DecodeLoop fuel (rest.drop k)
    | (none, k) => utf8DecodeLoop fuel (rest.drop k)

/-- Best-effort lossy UTF-8 decoding, the model of Python's
`bytes.decode(utf8, errors=ignore)` used by receive_data (and by the drain
in send_data): valid sequences are decoded, invalid or truncated sequences
are dropped and decoding continues after them. Total on all byte lists. -/
def utf8DecodeIgnore (l : List Nat) : List Nat := utf8DecodeLoop l.length l

/-- UTF-8 encoding of one code point, the model of Python's
`char.encode(utf8)` in send_data's per-character write. -/
def utf8EncodeChar (c : Nat) : List Nat :=
  if c < 0x80 then [c]
  else if c < 0x800 then [0xC0 + c / 0x40, 0x80 + c % 0x40]
  else if c < 0x10000 then
    [0xE0 + c / 0x1000, 0x80 + c / 0x40 % 0x40, 0x80 + c % 0x40]
  else
    [0xF0 + c / 0x40000, 0x80 + c / 0x1000 % 0x40,
     0x80 + c / 0x40 % 0x40, 0x80 + c % 0x40]

/-- UTF-8 encoding of a whole payload (sequence of code points). -/
def utf8Encode (p : List Nat) : List Nat := (p.map utf8EncodeChar).flatten

/-- Code points that a Python str character can carry into `encode(utf8)`
without error: below the surrogate range or above it and below 0x110000. -/
def ValidCodepoint (c : Nat) : Prop := c < 0xD800 ∨ (0xE000 ≤ c ∧ c < 0x110000)

instance (c : Nat) : Decidable (ValidCodepoint c) := by
  unfold ValidCodepoint
  infer_instance

/-- Result of the transmit phase: the count returned by send_data, the list
of `ser.write` calls (each the UTF-8 encoding of one character, in order)
and the lines opportunistically drained from the port while sending. -/
structure TxResult where
  sent_bytes : Nat
  writes : List (List Nat)
  drained : List (List Nat)

/-- The body of send_data's for-loop over the payload characters: write the
character's UTF-8 encoding, bump sent_bytes by one, and drain an inbound
line when one is available at this loop index. -/
def sendLoop (inbound : Nat → Option (List Nat)) : List Nat → Nat → TxResult
  | [], _ => ⟨0, [], []⟩
  | c :: cs, i =>
    let r := sendLoop inbound cs (i + 1)
    ⟨r.sent_bytes + 1, utf8EncodeChar c :: r.writes, (inbound i).toList ++ r.drained⟩

/-- Model of send_data: iterate the loop body over the payload from index 0.
`payload` is the sequence of code points of DATA_TO_SEND; `inbound` gives
the line read by `ser.readline()` at a loop iteration where
`ser.in_waiting > 0`, or `none` when no inbound byte was pending. -/
def send_data (payload : List Nat) (inbound : Nat → Option (List Nat)) : TxResult :=
  sendLoop inbound payload 0

/-- One polling iteration of the receive loop as seen by the code: the
current wall-clock time and the byte available on the port (`none` models
`ser.in_waiting == 0`). -/
structure RxInput where
  t : Nat
  avail : Option Nat
deriving DecidableEq

/-- The pair of locals feeding one `SpeedRx` print: `total_received_bytes`
and `elapsed_time` at the moment the report is emitted. -/
structure RxReport where
  bytes : Nat
  elapsed : Nat
deriving DecidableEq

/-- The mutable state of receive_data's while-loop, one field per local
variable of the Python function. -/
structure RxState where
  received_data : List Nat
  total_received_bytes : Nat
  start_receive_time : Nat
  last_activity_time : Nat
  last_report_time : Nat
  no_data : Bool
deriving DecidableEq

/-- The inactivity threshold TIMEOUT_THRESHOLD = 3.0 of receive_data. -/
def TIMEOUT_THRESHOLD : Nat := 3

/-- receive_data's locals just before the while-loop: empty buffer, zero
counter, all three clocks at the phase-start instant, no_data = True. -/
def initState (t0 : Nat) : RxState := ⟨[], 0, t0, t0, t0, true⟩

/-- First block of the loop body: if a byte is available, read it, append
it to received_data, clear no_data, bump the counter and record the current
time as last activity. -/
def rxRead (s : RxState) (inp : RxInput) : RxState :=
  match inp.avail with
  | some b =>
    ⟨s.received_data ++ [b], s.total_received_bytes + 1,
     s.start_receive_time, inp.t, s.last_report_time, false⟩
  | none => s

/-- Second block: the loop's sole exit condition,
`time.time() - last_activity_time > TIMEOUT_THRESHOLD and no_data == False`. -/
def rxBreak (s : RxState) (t : Nat) : Bool :=
  decide (TIMEOUT_THRESHOLD < t - s.last_activity_time) && (s.no_data == false)

/-- Third block: once at least one time unit has passed since the last
report, compute `elapsed_time` since the interval start, emit the speed
sample when `elapsed_time > 0`, and reset the interval counter, interval
start and report clock regardless. -/
def rxReport (s : RxState) (t : Nat) : RxState × Option RxReport :=
  if 1 ≤ t - s.last_report_time then
    let elapsed := t - s.start_receive_time
    (⟨s.received_data, 0, t, s.last_activity_time, t, s.no_data⟩,
     if 0 < elapsed then some ⟨s.total_received_bytes, elapsed⟩ else none)
  else (s, none)

/-- The value printed by a `SpeedRx` report:
`speed_bps = (total_received_bytes * 8) / elapsed_time`. -/
def speed_bps (r : RxReport) : ℚ := (r.bytes * 8 : ℚ) / (r.elapsed : ℚ)

/-- Observable outcome of running the receive loop on a finite schedule of
polling iterations: final state, emitted reports in order, whether the
break fired, and how many iterations were executed (including the breaking
one). -/
structure RxRunOut where
  state : RxState
  reports : List RxReport
  terminated : Bool
  steps : Nat
deriving DecidableEq

/-- Run the while-loop of receive_data over a finite schedule of polling
iterations, stopping early if the exit condition fires. The three blocks
execute in source order: read, break check, report. -/
def rxRun (s : RxState) : List RxInput → RxRunOut
  | [] => ⟨s, [], false, 0⟩
  | inp :: rest =>
    let s1 := rxRead s inp
    if rxBreak s1 inp.t then ⟨s1, [], true, 1⟩
    else
      let p := rxReport s1 inp.t
      let out := rxRun p.1 rest
      ⟨out.state, p.2.toList ++ out.reports, out.terminated, out.steps + 1⟩

/-- Model of receive_data, entered at instant `t0` with freshly initialised
locals, observed along the finite polling schedule `inps`. -/
def receive_data (t0 : Nat) (inps : List RxInput) : RxRunOut :=
  rxRun (initState t0) inps

/-- The bytes delivered by the channel along a schedule, in order. -/
def deliveredBytes (inps : List RxInput) : List Nat :=
  inps.filterMap (fun i => i.avail)

/-- Errors the serial transport can raise. -/
inductive SerialErr where
  | writeFailure
  | readFailure
deriving DecidableEq

/-- Observable trace of the __main__ block: the propagated result, whether
receive_data was entered, and whether ser.close() executed. -/
structure MainTrace where
  result : Except SerialErr Unit
  receiver_entered : Bool
  channel_closed : Bool

/-- Model of the __main__ block `send_data(); receive_data(); ser.close()`:
plain sequencing with exception propagation and no try/finally, so a raise
in either phase skips everything after it. `sendRes` and `recvRes` are the
outcomes the two phases would produce if entered. -/
def runMain (sendRes : Except SerialErr Nat) (recvRes : Except SerialErr Unit) :
    MainTrace :=
  match sendRes with
  | Except.error e => ⟨Except.error e, false, false⟩
  | Except.ok _ =>
    match recvRes with
    | Except.error e => ⟨Except.error e, true, false⟩
    | Except.ok _ => ⟨Except.ok (), true, true⟩

/-- Binary digits of `n`, most significant first, accumulated onto `acc`,
with explicit fuel (any fuel at least `n` gives the same result); the model
of Python's `bin(n)` digit string for positive `n`. -/
def binRepLoop : Nat → Nat → List Nat → List Nat
  | _, 0, acc => acc
  | 0, _ + 1, acc => acc
  | fuel + 1, n + 1, acc => binRepLoop fuel ((n + 1) / 2) ((n + 1) % 2 :: acc)

/-- Binary digits of `n`, most significant first, no leading zeros. -/
def bits (n : Nat) : List Nat := binRepLoop n n []

/-- The digit list of `bin(n)` with the 0b sliced off: no leading zeros,
except that `bin(0)` is the single digit 0. -/
def binRep (n : Nat) : List Nat := if n = 0 then [0] else bits n

/-- Number-of-1-bits loop with explicit fuel. -/
def popcountLoop : Nat → Nat → Nat
  | _, 0 => 0
  | 0, _ + 1 => 0
  | fuel + 1, n + 1 => popcountLoop fuel ((n + 1) / 2) + (n + 1) % 2

/-- Number of 1 bits in the binary representation of `n`. -/
def popcount (n : Nat) : Nat := popcountLoop n n

/-- Length of the binary representation of `n` without leading zeros (the
bit length in the sense used by `bin(n)`; `bitLen 0 = 1` since bin(0) is
the one-digit string 0). -/
def bitLen (n : Nat) : Nat := (binRep n).length

/-- Model of count_bits_in_paragraph from bcount.py: for each character,
take the binary representation of its code point without leading zeros and
tally its 1 digits, its 0 digits and the running character count. -/
def count_bits_in_paragraph : List Nat → Nat × Nat × Nat
  | [] => (0, 0, 0)
  | c :: cs =>
    let r := count_bits_in_paragraph cs
    ((binRep c).count 1 + r.1, (binRep c).count 0 + r.2.1, r.2.2 + 1)

/-- Any fuel at least the length of the list computes the same decoding. -/
theorem utf8DecodeLoop_congr :
    ∀ f f' (l : List Nat), l.length ≤ f → l.length ≤ f' →
      utf8DecodeLoop f l = utf8DecodeLoop f' l := by
  intro f
  induction f with
  | zero =>
    intro f' l h _
    cases l with
    | nil => cases f' <;> rfl
    | cons b rest => simp at h
  | succ f ih =>
    intro f' l h h'
    cases l with
    | nil => cases f' <;> rfl
    | cons b rest =>
      cases f' with
      | zero => simp at h'
      | succ f' =>
        simp only [List.length_cons] at h h'
        rcases hd : decodeFirst b rest with ⟨_ | cp, k⟩
        · simp only [utf8DecodeLoop, hd]
          exact ih f' _ (by simp only [List.length_drop]; omega)
            (by simp only [List.length_drop]; omega)
        · simp only [utf8DecodeLoop, hd]
          rw [ih f' _ (by simp only [List.length_drop]; omega)
            (by simp only [List.length_drop]; omega)]

/-- Unfolding lemma: a successfully decoded sequence contributes its code
point and decoding continues after the consumed bytes. -/
theorem utf8DecodeIgnore_cons_some {b cp k : Nat} {rest : List Nat}
    (h : decodeFirst b rest = (some cp, k)) :
    utf8DecodeIgnore (b :: rest) = cp :: utf8DecodeIgnore (rest.drop k) := by
  unfold utf8DecodeIgnore
  simp only [List.length_cons, utf8DecodeLoop, h]
  rw [utf8DecodeLoop_congr rest.length (rest.drop k).length (rest.drop k)
    (by simp only [List.length_drop]; omega) le_rfl]

/-- Unfolding lemma: an invalid sequence is dropped and decoding continues
after the consumed bytes. -/
theorem utf8DecodeIgnore_cons_none {b k : Nat} {rest : List Nat}
    (h : decodeFirst b rest = (none, k)) :
    utf8DecodeIgnore (b :: rest) = utf8DecodeIgnore (rest.drop k) := by
  unfold utf8DecodeIgnore
  simp only [List.length_cons, utf8DecodeLoop, h]
  rw [utf8DecodeLoop_congr rest.length (rest.drop k).length (rest.drop k)
    (by simp only [List.length_drop]; omega) le_rfl]

/-- An ASCII byte is never a continuation byte. -/
theorem isCont_eq_false {v : Nat} (h : v < 0x80) : isCont v = false := by
  simp only [isCont, decide_eq_false_iff_not]
  omega

/-- An ASCII byte never passes the 3-byte first-continuation test. -/
theorem cont3first_eq_false {b v : Nat} (h : v < 0x80) : cont3first b v = false := by
  unfold cont3first isCont
  split_ifs <;> (simp only [decide_eq_false_iff_not]; omega)

/-- An ASCII byte never passes the 4-byte first-continuation test. -/
theorem cont4first_eq_false {b v : Nat} (h : v < 0x80) : cont4first b v = false := by
  unfold cont4first isCont
  split_ifs <;> (simp only [decide_eq_false_iff_not]; omega)

/-- Indexing with default 0 into an all-ASCII list yields an ASCII value. -/
theorem getD_lt_of_ascii :
    ∀ (t : List Nat), (∀ x ∈ t, x < 0x80) → ∀ i, t.getD i 0 < 0x80 := by
  intro t
  induction t with
  | nil => intro _ i; cases i <;> simp [List.getD]
  | cons a t ih =>
    intro h i
    cases i with
    | zero => simpa using h a (by simp)
    | succ i =>
      simp only [List.getD_cons_succ]
      exact ih (fun x hx => h x (by simp [hx])) i

set_option maxHeartbeats 1600000 in
/-- decodeFirst never claims to consume more continuation bytes than the
given list holds. -/
theorem decodeFirst_snd_le (b : Nat) (bs : List Nat) :
    (decodeFirst b bs).2 ≤ bs.length := by
  have h0 : ((0:Nat) < 0x80) := by omega
  match bs with
  | [] =>
    simp only [decodeFirst, List.getD_nil, isCont_eq_false h0,
      cont3first_eq_false h0, cont4first_eq_false h0]
    split_ifs <;> (try contradiction) <;> dsimp only <;>
      simp only [List.length_nil] <;> omega
  | [x1] =>
    simp only [decodeFirst, List.getD_cons_zero, List.getD_cons_succ,
      List.getD_nil, isCont_eq_false h0, cont3first_eq_false h0,
      cont4first_eq_false h0]
    split_ifs <;> (try contradiction) <;> dsimp only <;>
      simp only [List.length_cons, List.length_nil] <;> omega
  | [x1, x2] =>
    simp only [decodeFirst, List.getD_cons_zero, List.getD_cons_succ,
      List.getD_nil, isCont_eq_false h0, cont3first_eq_false h0,
      cont4first_eq_false h0]
    split_ifs <;> (try contradiction) <;> dsimp only <;>
      simp only [List.length_cons, List.length_nil] <;> omega
  | x1 :: x2 :: x3 :: bs' =>
    simp only [decodeFirst, List.getD_cons_zero, List.getD_cons_succ]
    split_ifs <;> dsimp only <;> simp only [List.length_cons] <;> omega

set_option maxHeartbeats 1600000 in
/-- Appending ASCII bytes after a byte list never changes how the first
sequence starting in that list decodes: an ASCII byte can never serve as a
continuation byte of an earlier sequence. -/
theorem decodeFirst_append_ascii (b : Nat) (bs t : List Nat)
    (ht : ∀ x ∈ t, x < 0x80) :
    decodeFirst b (bs ++ t) = decodeFirst b bs := by
  have h0 : ((0:Nat) < 0x80) := by omega
  have g0 := getD_lt_of_ascii t ht 0
  have g1 := getD_lt_of_ascii t ht 1
  match bs with
  | [] =>
    simp only [decodeFirst, List.nil_append, List.getD_nil,
      isCont_eq_false h0, cont3first_eq_false h0, cont4first_eq_false h0,
      isCont_eq_false g0, cont3first_eq_false g0, cont4first_eq_false g0,
      isCont_eq_false g1]
    split_ifs <;> (try contradiction) <;> rfl
  | [x1] =>
    simp only [decodeFirst, List.cons_append, List.nil_append,
      List.getD_cons_zero, List.getD_cons_succ, List.getD_nil,
      isCont_eq_false h0, isCont_eq_false g0, isCont_eq_false g1]
    split_ifs <;> (try contradiction) <;> rfl
  | [x1, x2] =>
    simp only [decodeFirst, List.cons_append, List.nil_append,
      List.getD_cons_zero, List.getD_cons_succ, List.getD_nil,
      isCont_eq_false h0, isCont_eq_false g0]
    split_ifs <;> (try contradiction) <;> rfl
  | x1 :: x2 :: x3 :: bs' =>
    simp only [decodeFirst, List.cons_append, List.getD_cons_zero,
      List.getD_cons_succ]

/-- An all-ASCII byte list decodes to itself, byte for byte. -/
theorem utf8DecodeIgnore_ascii :
    ∀ (t : List Nat), (∀ x ∈ t, x < 0x80) → utf8DecodeIgnore t = t := by
  intro t
  induction t with
  | nil => intro _; rfl
  | cons a t ih =>
    intro h
    have ha : a < 0x80 := h a (by simp)
    have hd : decodeFirst a t = (some a, 0) := by
      unfold decodeFirst
      simp [ha]
    rw [utf8DecodeIgnore_cons_some hd]
    simp only [List.drop_zero]
    rw [ih (fun x hx => h x (by simp [hx]))]

/-- Core of the decode robustness property: bytes decoded or dropped before
an all-ASCII suffix never swallow that suffix, so the suffix survives the
lossy decode verbatim. -/
theorem utf8DecodeIgnore_append_ascii_aux (t : List Nat)
    (ht : ∀ x ∈ t, x < 0x80) :
    ∀ n (bs : List Nat), bs.length ≤ n →
      utf8DecodeIgnore (bs ++ t) = utf8DecodeIgnore bs ++ t := by
  intro n
  induction n with
  | zero =>
    intro bs h
    have hbs : bs = [] := List.eq_nil_of_length_eq_zero (Nat.le_zero.mp h)
    subst hbs
    simpa using utf8DecodeIgnore_ascii t ht
  | succ n ih =>
    intro bs hlen
    match bs with
    | [] => simpa using utf8DecodeIgnore_ascii t ht
    | b :: bs1 =>
      have hk := decodeFirst_snd_le b bs1
      rcases hd : decodeFirst b bs1 with ⟨r, k⟩
      rw [hd] at hk
      have hd2 : decodeFirst b (bs1 ++ t) = (r, k) := by
        rw [decodeFirst_append_ascii b bs1 t ht, hd]
      have hdrop : (bs1 ++ t).drop k = bs1.drop k ++ t :=
        List.drop_append_of_le_length hk
      simp only [List.length_cons] at hlen
      have hrec := ih (bs1.drop k) (by simp only [List.length_drop]; omega)
      cases r with
      | some cp =>
        have e1 : utf8DecodeIgnore ((b :: bs1) ++ t) =
            cp :: utf8DecodeIgnore ((bs1 ++ t).drop k) :=
          utf8DecodeIgnore_cons_some hd2
        rw [e1, hdrop, hrec, utf8DecodeIgnore_cons_some hd]
        simp
      | none =>
        have e1 : utf8DecodeIgnore ((b :: bs1) ++ t) =
            utf8DecodeIgnore ((bs1 ++ t).drop k) :=
          utf8DecodeIgnore_cons_none hd2
        rw [e1, hdrop, hrec, utf8DecodeIgnore_cons_none hd]

/-- A lone continuation byte is dropped by the lossy decode. -/
theorem utf8DecodeIgnore_cont_cons {b : Nat} (hb : 0x80 ≤ b ∧ b < 0xC0)
    (rest : List Nat) :
    utf8DecodeIgnore (b :: rest) = utf8DecodeIgnore rest := by
  have hd : decodeFirst b rest = (none, 0) := by
    unfold decodeFirst
    have h1 : ¬ b < 0x80 := by omega
    have h2 : b < 0xC2 := by omega
    simp [h1, h2]
  rw [utf8DecodeIgnore_cons_none hd]
  simp

/-- A list consisting only of continuation bytes decodes to nothing. -/
theorem utf8DecodeIgnore_cont_junk :
    ∀ (junk : List Nat), (∀ x ∈ junk, 0x80 ≤ x ∧ x < 0xC0) →
      utf8DecodeIgnore junk = [] := by
  intro junk
  induction junk with
  | nil => intro _; rfl
  | cons b rest ih =>
    intro h
    rw [utf8DecodeIgnore_cont_cons (h b (by simp)) rest]
    exact ih (fun x hx => h x (by simp [hx]))

set_option maxHeartbeats 1600000 in
/-- Decoding inverts encoding one character at a time: the lossy decoder
recovers exactly the encoded code point and continues with the rest. -/
theorem utf8DecodeIgnore_encodeChar (c : Nat) (hv : ValidCodepoint c)
    (rest : List Nat) :
    utf8DecodeIgnore (utf8EncodeChar c ++ rest) = c :: utf8DecodeIgnore rest := by
  unfold ValidCodepoint at hv
  by_cases h1 : c < 0x80
  · have hd : decodeFirst c rest = (some c, 0) := by
      unfold decodeFirst
      simp [h1]
    simp only [utf8EncodeChar, if_pos h1, List.cons_append, List.nil_append]
    rw [utf8DecodeIgnore_cons_some hd]
    simp
  · by_cases h2 : c < 0x800
    · have hx1 : ¬ (0xC0 + c / 0x40) < 0x80 := by omega
      have hx2 : ¬ (0xC0 + c / 0x40) < 0xC2 := by omega
      have hx3 : (0xC0 + c / 0x40) < 0xE0 := by omega
      have hcont : isCont (0x80 + c % 0x40) = true := by
        simp only [isCont, decide_eq_true_eq]
        omega
      have hd : decodeFirst (0xC0 + c / 0x40) ((0x80 + c % 0x40) :: rest) =
          (some c, 1) := by
        unfold decodeFirst
        simp only [List.getD_cons_zero, List.getD_cons_succ, if_neg hx1,
          if_neg hx2, if_pos hx3, hcont, if_true]
        simp only [Prod.mk.injEq, Option.some.injEq]
        constructor
        · omega
        · trivial
      simp only [utf8EncodeChar, if_neg h1, if_pos h2, List.cons_append,
        List.nil_append]
      rw [utf8DecodeIgnore_cons_some hd]
      simp
    · by_cases h3 : c < 0x10000
      · have hsur : c < 0xD800 ∨ 0xE000 ≤ c := by omega
        have hx1 : ¬ (0xE0 + c / 0x1000) < 0x80 := by omega
        have hx2 : ¬ (0xE0 + c / 0x1000) < 0xC2 := by omega
        have hx3 : ¬ (0xE0 + c / 0x1000) < 0xE0 := by omega
        have hx4 : (0xE0 + c / 0x1000) < 0xF0 := by omega
        have hcont3 : cont3first (0xE0 + c / 0x1000) (0x80 + c / 0x40 % 0x40) = true := by
          unfold cont3first
          split_ifs with hE0 hED
          · simp only [decide_eq_true_eq]
            omega
          · simp only [decide_eq_true_eq]
            rcases hsur with hs | hs
            · omega
            · omega
          · simp only [isCont, decide_eq_true_eq]
            omega
        have hcont2 : isCont (0x80 + c % 0x40) = true := by
          simp only [isCont, decide_eq_true_eq]
          omega
        have hd : decodeFirst (0xE0 + c / 0x1000)
            ((0x80 + c / 0x40 % 0x40) :: (0x80 + c % 0x40) :: rest) =
            (some c, 2) := by
          unfold decodeFirst
          simp only [List.getD_cons_zero, List.getD_cons_succ]
          simp only [if_neg hx1, if_neg hx2, if_neg hx3, if_pos hx4,
            hcont3, hcont2, if_true]
          simp only [Prod.mk.injEq, Option.some.injEq]
          constructor
          · omega
          · trivial
        simp only [utf8EncodeChar, if_neg h1, if_neg h2, if_pos h3,
          List.cons_append, List.nil_append]
        rw [utf8DecodeIgnore_cons_some hd]
        simp
      · have hup : c < 0x110000 := by omega
        have hx1 : ¬ (0xF0 + c / 0x40000) < 0x80 := by omega
        have hx2 : ¬ (0xF0 + c / 0x40000) < 0xC2 := by omega
        have hx3 : ¬ (0xF0 + c / 0x40000) < 0xE0 := by omega
        have hx4 : ¬ (0xF0 + c / 0x40000) < 0xF0 := by omega
        have hx5 : (0xF0 + c / 0x40000) < 0xF5 := by omega
        have hcont4 : cont4first (0xF0 + c / 0x40000) (0x80 + c / 0x1000 % 0x40) = true := by
          unfold cont4first
          split_ifs with hF0 hF4
          · simp only [decide_eq_true_eq]
            omega
          · simp only [decide_eq_true_eq]
            omega
          · simp only [isCont, decide_eq_true_eq]
            omega
        have hcont2 : isCont (0x80 + c / 0x40 % 0x40) = true := by
          simp only [isCont, decide_eq_true_eq]
          omega
        have hcont3 : isCont (0x80 + c % 0x40) = true := by
          simp only [isCont, decide_eq_true_eq]
          omega
        have hd : decodeFirst (0xF0 + c / 0x40000)
            ((0x80 + c / 0x1000 % 0x40) :: (0x80 + c / 0x40 % 0x40) ::
             (0x80 + c % 0x40) :: rest) = (some c, 3) := by
          unfold decodeFirst
          simp only [List.getD_cons_zero, List.getD_cons_succ]
          simp only [if_neg hx1, if_neg hx2, if_neg hx3, if_neg hx4,
            if_pos hx5, hcont4, hcont2, hcont3, if_true]
          simp only [Prod.mk.injEq, Option.some.injEq]
          constructor
          · omega
          · trivial
        simp only [utf8EncodeChar, if_neg h1, if_neg h2, if_neg h3,
          List.cons_append, List.nil_append]
        rw [utf8DecodeIgnore_cons_some hd]
        simp

/-- Decoding inverts encoding on whole payloads of valid code points. -/
theorem utf8DecodeIgnore_utf8Encode :
    ∀ (p : List Nat), (∀ c ∈ p, ValidCodepoint c) →
      utf8DecodeIgnore (utf8Encode p) = p := by
  intro p
  induction p with
  | nil => intro _; rfl
  | cons c p ih =>
    intro h
    have : utf8Encode (c :: p) = utf8EncodeChar c ++ utf8Encode p := by
      simp [utf8Encode]
    rw [this, utf8DecodeIgnore_encodeChar c (h c (by simp)) (utf8Encode p)]
    rw [ih (fun x hx => h x (by simp [hx]))]

/-- The transmit loop counts one per payload character and issues exactly
the per-character UTF-8 writes, in payload order. -/
theorem sendLoop_spec (inbound : Nat → Option (List Nat)) :
    ∀ (p : List Nat) (i : Nat),
      (sendLoop inbound p i).sent_bytes = p.length ∧
      (sendLoop inbound p i).writes = p.map utf8EncodeChar := by
  intro p
  induction p with
  | nil => intro i; exact ⟨rfl, rfl⟩
  | cons c cs ih =>
    intro i
    obtain ⟨h1, h2⟩ := ih (i + 1)
    constructor
    · simp [sendLoop, h1]
    · simp [sendLoop, h2]

/-- The reporting block never touches the no_data flag. -/
theorem rxReport_no_data (s : RxState) (t : Nat) :
    (rxReport s t).1.no_data = s.no_data := by
  unfold rxReport
  split_ifs <;> rfl

/-- The reporting block never touches the last-activity clock. -/
theorem rxReport_last_activity (s : RxState) (t : Nat) :
    (rxReport s t).1.last_activity_time = s.last_activity_time := by
  unfold rxReport
  split_ifs <;> rfl

/-- The reporting block never touches the accumulated buffer. -/
theorem rxReport_received_data (s : RxState) (t : Nat) :
    (rxReport s t).1.received_data = s.received_data := by
  unfold rxReport
  split_ifs <;> rfl

/-- While no byte has ever arrived, the loop can never break: the exit
condition requires no_data == False, and only a read clears no_data. -/
theorem rxRun_silent :
    ∀ (inps : List RxInput) (s : RxState), s.no_data = true →
      (∀ i ∈ inps, i.avail = none) →
      (rxRun s inps).terminated = false ∧ (rxRun s inps).state.no_data = true := by
  intro inps
  induction inps with
  | nil => intro s h _; exact ⟨rfl, h⟩
  | cons inp rest ih =>
    intro s h hall
    have hav : inp.avail = none := hall inp (by simp)
    have hs1 : rxRead s inp = s := by unfold rxRead; rw [hav]
    have hbrk : rxBreak s inp.t = false := by
      unfold rxBreak
      rw [h]
      simp
    have hnd : (rxReport s inp.t).1.no_data = true := by
      rw [rxReport_no_data]; exact h
    obtain ⟨ih1, ih2⟩ := ih (rxReport s inp.t).1 hnd (fun i hi => hall i (by simp [hi]))
    simp [rxRun, hs1, hbrk, ih1, ih2]

/-- Once a byte has been received and the channel stays silent, the loop
breaks exactly at the first polling iteration whose time is strictly more
than the threshold past the recorded last activity, and runs the whole
schedule otherwise. -/
theorem rxRun_timeout :
    ∀ (inps : List RxInput) (s : RxState), s.no_data = false →
      (∀ i ∈ inps, i.avail = none) →
      ((rxRun s inps).terminated = true ↔
        ∃ i ∈ inps, TIMEOUT_THRESHOLD < i.t - s.last_activity_time) ∧
      ((rxRun s inps).terminated = true →
        (rxRun s inps).steps =
          inps.findIdx
            (fun i => decide (TIMEOUT_THRESHOLD < i.t - s.last_activity_time)) + 1) ∧
      ((rxRun s inps).terminated = false → (rxRun s inps).steps = inps.length) := by
  intro inps
  induction inps with
  | nil =>
    intro s h hall
    refine ⟨by simp [rxRun], by simp [rxRun], by simp [rxRun]⟩
  | cons inp rest ih =>
    intro s h hall
    have hav : inp.avail = none := hall inp (by simp)
    have hs1 : rxRead s inp = s := by unfold rxRead; rw [hav]
    by_cases hb : TIMEOUT_THRESHOLD < inp.t - s.last_activity_time
    · have hbrk : rxBreak s inp.t = true := by
        unfold rxBreak
        rw [h]
        simp [hb]
      refine ⟨?_, ?_, ?_⟩
      · simp only [rxRun, hs1, hbrk, if_true]
        simp only [true_iff]
        exact ⟨inp, by simp, hb⟩
      · intro _
        simp only [rxRun, hs1, hbrk, if_true]
        simp [List.findIdx_cons, hb]
      · intro hc
        simp only [rxRun, hs1, hbrk, if_true] at hc
        simp at hc
    · have hbrk : rxBreak s inp.t = false := by
        unfold rxBreak
        rw [h]
        simp [hb]
      have hnd : (rxReport s inp.t).1.no_data = false := by
        rw [rxReport_no_data]; exact h
      obtain ⟨ih1, ih2, ih3⟩ := ih (rxReport s inp.t).1 hnd
        (fun i hi => hall i (by simp [hi]))
      rw [rxReport_last_activity] at ih1 ih2
      refine ⟨?_, ?_, ?_⟩
      · simp only [rxRun, hs1, hbrk]
        simp only [Bool.false_eq_true, if_false]
        rw [ih1]
        constructor
        · rintro ⟨i, hi, hci⟩
          exact ⟨i, by simp [hi], hci⟩
        · rintro ⟨i, hi, hci⟩
          rcases List.mem_cons.mp hi with heq | hmem
          · subst heq; exact absurd hci hb
          · exact ⟨i, hmem, hci⟩
      · intro hterm
        simp only [rxRun, hs1, hbrk, Bool.false_eq_true, if_false] at hterm ⊢
        rw [List.findIdx_cons]
        have hpb : (decide (TIMEOUT_THRESHOLD < inp.t - s.last_activity_time)) = false := by
          simp [hb]
        rw [hpb]
        simp only [cond_false]
        rw [ih2 hterm]
      · intro hterm
        simp only [rxRun, hs1, hbrk, Bool.false_eq_true, if_false] at hterm ⊢
        rw [ih3 hterm]
        simp

/-- Every report the loop ever emits is built in the branch guarded by
`elapsed_time > 0`, so it carries a strictly positive interval duration. -/
theorem rxRun_reports_elapsed_pos :
    ∀ (inps : List RxInput) (s : RxState) (r : RxReport),
      r ∈ (rxRun s inps).reports → 0 < r.elapsed := by
  intro inps
  induction inps with
  | nil => intro s r hr; simp [rxRun] at hr
  | cons inp rest ih =>
    intro s r hr
    by_cases hbrk : rxBreak (rxRead s inp) inp.t
    · simp only [rxRun, hbrk, if_true] at hr
      simp at hr
    · simp only [rxRun, hbrk, Bool.false_eq_true, if_false] at hr
      rw [List.mem_append] at hr
      rcases hr with hr | hr
      · unfold rxReport at hr
        split_ifs at hr with h1
        · by_cases h2 : 0 < inp.t - (rxRead s inp).start_receive_time
          · simp only [if_pos h2, Option.toList_some, List.mem_singleton] at hr
            subst hr
            exact h2
          · simp only [if_neg h2, Option.toList_none] at hr
            simp at hr
        · simp at hr
      · exact ih (rxReport (rxRead s inp) inp.t).1 r hr

/-- Along any run, the interval start clock and the report clock stay
equal: they start equal and are only ever reset together. -/
theorem rxRun_start_eq_report :
    ∀ (inps : List RxInput) (s : RxState),
      s.start_receive_time = s.last_report_time →
      (rxRun s inps).state.start_receive_time =
        (rxRun s inps).state.last_report_time := by
  intro inps
  induction inps with
  | nil => intro s h; exact h
  | cons inp rest ih =>
    intro s h
    have hread : (rxRead s inp).start_receive_time = (rxRead s inp).last_report_time := by
      unfold rxRead
      cases inp.avail <;> simpa
    by_cases hbrk : rxBreak (rxRead s inp) inp.t
    · simp only [rxRun, hbrk, if_true]
      exact hread
    · simp only [rxRun, hbrk, Bool.false_eq_true, if_false]
      apply ih
      unfold rxReport
      split_ifs
      · simp
      · simpa using hread

/-- When the reporting branch is entered on a state whose two interval
clocks agree, the guard `elapsed_time > 0` necessarily holds and the sample
for the closing interval is emitted. -/
theorem rxReport_fires (s : RxState) (t : Nat)
    (hinv : s.start_receive_time = s.last_report_time)
    (h : 1 ≤ t - s.last_report_time) :
    (rxReport s t).2 = some ⟨s.total_received_bytes, t - s.start_receive_time⟩ ∧
    0 < t - s.start_receive_time := by
  have hpos : 0 < t - s.start_receive_time := by rw [hinv]; omega
  unfold rxReport
  rw [if_pos h]
  exact ⟨by simp [hpos], hpos⟩

/-- The bytes accumulated by a run are exactly the bytes the channel
delivered during the iterations that were actually executed, appended in
order to whatever the buffer already held. -/
theorem rxRun_buffer_provenance :
    ∀ (inps : List RxInput) (s : RxState),
      (rxRun s inps).state.received_data =
        s.received_data ++ deliveredBytes (inps.take (rxRun s inps).steps) ∧
      (rxRun s inps).steps ≤ inps.length := by
  intro inps
  induction inps with
  | nil => intro s; simp [rxRun, deliveredBytes]
  | cons inp rest ih =>
    intro s
    have hread : (rxRead s inp).received_data =
        s.received_data ++ deliveredBytes [inp] := by
      unfold rxRead deliveredBytes
      cases h : inp.avail <;> simp [h]
    by_cases hbrk : rxBreak (rxRead s inp) inp.t
    · simp only [rxRun, hbrk, if_true]
      constructor
      · simpa using hread
      · simp
    · simp only [rxRun, hbrk, Bool.false_eq_true, if_false]
      obtain ⟨ih1, ih2⟩ := ih (rxReport (rxRead s inp) inp.t).1
      constructor
      · rw [ih1, rxReport_received_data, hread]
        simp only [List.take_succ_cons]
        unfold deliveredBytes
        cases h : inp.avail <;> simp [h]
      · simpa using ih2

/-- Any fuel at least `n` computes the same digit accumulation: the digits
of `n` prepended to the accumulator. -/
theorem binRepLoop_eq :
    ∀ (n f : Nat) (acc : List Nat), n ≤ f → binRepLoop f n acc = bits n ++ acc := by
  intro n
  induction n using Nat.strong_induction_on with
  | _ n ih =>
    intro f acc hf
    match n, f with
    | 0, f => cases f <;> simp [binRepLoop, bits]
    | (m + 1), (f + 1) =>
      have hlt : (m + 1) / 2 < m + 1 := by omega
      have h1 : binRepLoop f ((m + 1) / 2) ((m + 1) % 2 :: acc) =
          bits ((m + 1) / 2) ++ ((m + 1) % 2 :: acc) :=
        ih _ hlt f _ (by omega)
      have h2 : bits (m + 1) = bits ((m + 1) / 2) ++ [(m + 1) % 2] := by
        unfold bits
        show binRepLoop m ((m + 1) / 2) [(m + 1) % 2] = _
        rw [ih _ hlt m _ (by omega)]
        rw [show bits ((m+1)/2) = binRepLoop ((m+1)/2) ((m+1)/2) [] from rfl]
      show binRepLoop f ((m + 1) / 2) ((m + 1) % 2 :: acc) = bits (m + 1) ++ acc
      rw [h1, h2]
      simp

/-- The digits of a positive number are its upper digits followed by its
low bit. -/
theorem bits_rec (n : Nat) (h : 0 < n) : bits n = bits (n / 2) ++ [n % 2] := by
  match n, h with
  | (m + 1), _ =>
    show binRepLoop (m + 1) (m + 1) [] = _
    show binRepLoop m ((m + 1) / 2) [(m + 1) % 2] = _
    rw [binRepLoop_eq ((m + 1) / 2) m [(m + 1) % 2] (by omega)]

/-- Any fuel at least `n` computes the same 1-bit count. -/
theorem popcountLoop_eq : ∀ (n f : Nat), n ≤ f → popcountLoop f n = popcount n := by
  intro n
  induction n using Nat.strong_induction_on with
  | _ n ih =>
    intro f hf
    match n, f with
    | 0, f => cases f <;> rfl
    | (m + 1), (f + 1) =>
      have hlt : (m + 1) / 2 < m + 1 := by omega
      show popcountLoop f ((m + 1) / 2) + (m + 1) % 2 = popcount (m + 1)
      rw [ih _ hlt f (by omega)]
      show _ = popcountLoop (m + 1) (m + 1)
      show _ = popcountLoop m ((m + 1) / 2) + (m + 1) % 2
      rw [ih _ hlt m (by omega)]

/-- Recurrence for popcount. -/
theorem popcount_rec (n : Nat) (h : 0 < n) :
    popcount n = popcount (n / 2) + n % 2 := by
  match n, h with
  | (m + 1), _ =>
    show popcountLoop (m + 1) (m + 1) = _
    show popcountLoop m ((m + 1) / 2) + (m + 1) % 2 = _
    rw [popcountLoop_eq ((m + 1) / 2) m (by omega)]

/-- Every digit produced by bits is a 0 or a 1. -/
theorem bits_mem_le_one : ∀ (n : Nat), ∀ d ∈ bits n, d = 0 ∨ d = 1 := by
  intro n
  induction n using Nat.strong_induction_on with
  | _ n ih =>
    intro d hd
    match n with
    | 0 => simp [bits, binRepLoop] at hd
    | (m + 1) =>
      rw [bits_rec (m + 1) (by omega)] at hd
      rcases List.mem_append.mp hd with hm | hm
      · exact ih _ (by omega) d hm
      · simp at hm
        omega

/-- The 1-digit count of bits agrees with popcount. -/
theorem bits_count1 : ∀ (n : Nat), (bits n).count 1 = popcount n := by
  intro n
  induction n using Nat.strong_induction_on with
  | _ n ih =>
    match n with
    | 0 => rfl
    | (m + 1) =>
      rw [bits_rec (m + 1) (by omega), List.count_append,
        ih _ (show (m + 1) / 2 < m + 1 by omega),
        popcount_rec (m + 1) (by omega)]
      rcases Nat.mod_two_eq_zero_or_one (m + 1) with h | h <;> rw [h] <;> rfl

/-- For lists of binary digits, the 0-count and 1-count partition the
length. -/
theorem count0_add_count1 :
    ∀ (l : List Nat), (∀ d ∈ l, d = 0 ∨ d = 1) →
      l.count 0 + l.count 1 = l.length := by
  intro l
  induction l with
  | nil => intro _; rfl
  | cons a l ih =>
    intro h
    have ha := h a (by simp)
    have ihl := ih (fun d hd => h d (by simp [hd]))
    rcases ha with ha | ha <;> subst ha <;>
      simp [List.count_cons, ihl] <;> omega

/-- bits of a positive number is nonempty. -/
theorem bits_ne_nil (n : Nat) (h : 0 < n) : bits n ≠ [] := by
  rw [bits_rec n h]
  simp

/-- The length of bits is the position of the leading binary digit: it is
the unique L with 2 ^ (L - 1) ≤ n < 2 ^ L. -/
theorem bits_length_pow :
    ∀ (n : Nat), 0 < n →
      2 ^ ((bits n).length - 1) ≤ n ∧ n < 2 ^ (bits n).length := by
  intro n
  induction n using Nat.strong_induction_on with
  | _ n ih =>
    intro hn
    match n, hn with
    | 1, _ =>
      have : bits 1 = [1] := rfl
      rw [this]
      simp
    | (m + 2), _ =>
      have hp : 0 < (m + 2) / 2 := by omega
      have hlt : (m + 2) / 2 < m + 2 := by omega
      obtain ⟨ih1, ih2⟩ := ih _ hlt hp
      have hL : 1 ≤ (bits ((m + 2) / 2)).length := by
        have := bits_ne_nil ((m + 2) / 2) hp
        cases hb : bits ((m + 2) / 2) with
        | nil => exact absurd hb this
        | cons x xs => simp [hb]
      rw [bits_rec (m + 2) (by omega), List.length_append]
      constructor
      · simp only [List.length_singleton]
        have he : (bits ((m + 2) / 2)).length + 1 - 1 = ((bits ((m + 2) / 2)).length - 1) + 1 := by omega
        rw [he, pow_succ]
        omega
      · simp only [List.length_singleton]
        rw [pow_succ]
        omega

/-- The 1-digit count of a character's bin digits is its popcount. -/
theorem binRep_count1 (c : Nat) : (binRep c).count 1 = popcount c := by
  match c with
  | 0 => rfl
  | (m + 1) =>
    show (bits (m + 1)).count 1 = _
    exact bits_count1 (m + 1)

/-- Every digit of binRep is binary. -/
theorem binRep_digits (c : Nat) : ∀ d ∈ binRep c, d = 0 ∨ d = 1 := by
  match c with
  | 0 => intro d hd; simp [binRep] at hd; omega
  | (m + 1) =>
    intro d hd
    exact bits_mem_le_one (m + 1) d hd

/-- The 0-digit count of a character's bin digits is the bit length minus
the popcount. -/
theorem binRep_count0 (c : Nat) : (binRep c).count 0 = bitLen c - popcount c := by
  have h := count0_add_count1 (binRep c) (binRep_digits c)
  have h1 := binRep_count1 c
  unfold bitLen
  omega

/-- The accumulator returned by count_bits_in_paragraph is the per-digit
tally over all characters together with the character count. -/
theorem count_bits_eq :
    ∀ (s : List Nat),
      count_bits_in_paragraph s =
        ((s.map (fun c => (binRep c).count 1)).sum,
         (s.map (fun c => (binRep c).count 0)).sum, s.length) := by
  intro s
  induction s with
  | nil => rfl
  | cons c cs ih =>
    simp only [count_bits_in_paragraph, ih, List.map_cons, List.sum_cons,
      List.length_cons]

/-- C1: for every payload, send_data returns a bytes-written count equal to
the payload length, and the write calls it issues, concatenated in order,
are exactly the payload's UTF-8 encoding — decoding them recovers the
payload with no code point omitted, duplicated or reordered. -/
theorem send_data_reproduces_payload (p : List Nat)
    (inbound : Nat → Option (List Nat)) (hv : ∀ c ∈ p, ValidCodepoint c) :
    (send_data p inbound).sent_bytes = p.length ∧
    (send_data p inbound).writes.flatten = utf8Encode p ∧
    utf8DecodeIgnore (send_data p inbound).writes.flatten = p := by
  obtain ⟨h1, h2⟩ := sendLoop_spec inbound p 0
  refine ⟨h1, ?_, ?_⟩
  · rw [send_data, h2]
    rfl
  · rw [send_data, h2]
    exact utf8DecodeIgnore_utf8Encode p hv

/-- C1 witness: the two-character ASCII payload OK is counted, written and
recovered exactly. -/
theorem send_data_reproduces_payload_witness :
    (send_data [79, 75] (fun _ => none)).sent_bytes = ([79, 75] : List Nat).length ∧
    (send_data [79, 75] (fun _ => none)).writes.flatten = utf8Encode [79, 75] ∧
    utf8DecodeIgnore (send_data [79, 75] (fun _ => none)).writes.flatten = [79, 75] :=
  send_data_reproduces_payload [79, 75] (fun _ => none) (by decide)

/-- C2: on a channel that never delivers a byte, the receive loop never
terminates within any finite number of polling iterations — the no_data
flag is never cleared, so the exit condition never fires. -/
theorem receive_data_silent_never_terminates (t0 : Nat) (inps : List RxInput)
    (h : ∀ i ∈ inps, i.avail = none) :
    (receive_data t0 inps).terminated = false ∧
    (receive_data t0 inps).state.no_data = true :=
  rxRun_silent inps (initState t0) rfl h

/-- C2 witness: three silent polling iterations spanning fifty time units
leave the loop running with the no-data flag still set. -/
theorem receive_data_silent_never_terminates_witness :
    (receive_data 0 [⟨1, none⟩, ⟨7, none⟩, ⟨50, none⟩]).terminated = false ∧
    (receive_data 0 [⟨1, none⟩, ⟨7, none⟩, ⟨50, none⟩]).state.no_data = true :=
  receive_data_silent_never_terminates 0 [⟨1, none⟩, ⟨7, none⟩, ⟨50, none⟩]
    (by decide)

/-- C3 counterexample: a byte arrives at t = 0 and the loop then polls at
t = 3, where the elapsed time since last activity is exactly 3, i.e. at
least 3 time units — yet the loop does not exit, because the code's test is
strict (greater than 3); polling at t = 4 does exit. -/
theorem receive_data_no_exit_at_threshold :
    (receive_data 0 [⟨0, some 65⟩, ⟨3, none⟩]).terminated = false ∧
    (receive_data 0 [⟨0, some 65⟩, ⟨4, none⟩]).terminated = true := by
  constructor <;> decide

/-- C3 amended: provided a byte was received (here at t0, with silence
afterwards), the loop exits at the first polling iteration whose elapsed
time since last activity strictly exceeds 3 time units — never at or
before an elapsed time of exactly 3 — and the breaking iteration is the
first schedule entry past the strict threshold. -/
theorem receive_data_strict_timeout (t0 b : Nat) (rest : List RxInput)
    (h : ∀ i ∈ rest, i.avail = none) :
    ((receive_data t0 (⟨t0, some b⟩ :: rest)).terminated = true ↔
      ∃ i ∈ rest, TIMEOUT_THRESHOLD < i.t - t0) ∧
    ((receive_data t0 (⟨t0, some b⟩ :: rest)).terminated = true →
      (receive_data t0 (⟨t0, some b⟩ :: rest)).steps =
        rest.findIdx (fun i => decide (TIMEOUT_THRESHOLD < i.t - t0)) + 2) := by
  have hread : rxRead (initState t0) ⟨t0, some b⟩ =
      ⟨[b], 1, t0, t0, t0, false⟩ := rfl
  have hbrk : rxBreak (⟨[b], 1, t0, t0, t0, false⟩ : RxState) t0 = false := by
    unfold rxBreak TIMEOUT_THRESHOLD
    simp
  have hrep : rxReport (⟨[b], 1, t0, t0, t0, false⟩ : RxState) t0 =
      (⟨[b], 1, t0, t0, t0, false⟩, none) := by
    unfold rxReport
    rw [if_neg (by simp)]
  obtain ⟨L1, L2, L3⟩ :=
    rxRun_timeout rest (⟨[b], 1, t0, t0, t0, false⟩ : RxState) rfl h
  unfold receive_data
  simp only [rxRun, hread, hbrk, Bool.false_eq_true, if_false, hrep]
  constructor
  · simpa using L1
  · intro hterm
    have := L2 (by simpa using hterm)
    simp only [this]

/-- C3 witness: with a byte at t = 0 and silent polls at t = 2 and t = 5,
the loop terminates, and it does so at the third iteration, the first poll
strictly past the threshold. -/
theorem receive_data_strict_timeout_witness :
    (receive_data 0 [⟨0, some 65⟩, ⟨2, none⟩, ⟨5, none⟩]).terminated = true ∧
    (receive_data 0 [⟨0, some 65⟩, ⟨2, none⟩, ⟨5, none⟩]).steps = 3 := by
  have h := receive_data_strict_timeout 0 65 [⟨2, none⟩, ⟨5, none⟩] (by decide)
  have hterm : (receive_data 0 [⟨0, some 65⟩, ⟨2, none⟩, ⟨5, none⟩]).terminated = true :=
    h.1.mpr ⟨⟨5, none⟩, by decide, by decide⟩
  exact ⟨hterm, by rw [h.2 hterm]; decide⟩

/-- C4 counterexample: when send_data raises a write failure, the __main__
block propagates the error without ever reaching ser.close() — the Channel
is not closed on this exit path, contrary to the claim. -/
theorem main_write_failure_skips_close :
    (runMain (Except.error SerialErr.writeFailure) (Except.ok ())).channel_closed
      = false ∧
    (runMain (Except.error SerialErr.writeFailure) (Except.ok ())).result =
      Except.error SerialErr.writeFailure :=
  ⟨rfl, rfl⟩

/-- C4 amended: ser.close() runs only on the straight-line path after both
phases return normally; if either phase raises, the error propagates out of
the session with the Channel left unclosed. -/
theorem main_channel_closed_iff_success :
    (∀ n : Nat, (runMain (Except.ok n) (Except.ok ())).channel_closed = true) ∧
    (∀ (e : SerialErr) (recvRes : Except SerialErr Unit),
      (runMain (Except.error e) recvRes).channel_closed = false) ∧
    (∀ (n : Nat) (e : SerialErr),
      (runMain (Except.ok n) (Except.error e)).channel_closed = false) :=
  ⟨fun _ => rfl, fun _ _ => rfl, fun _ _ => rfl⟩

/-- C5: if the transmit phase fails, receive_data is never entered and the
send error is what propagates out of the session. -/
theorem main_send_failure_skips_receiver (e : SerialErr)
    (recvRes : Except SerialErr Unit) :
    (runMain (Except.error e) recvRes).receiver_entered = false ∧
    (runMain (Except.error e) recvRes).result = Except.error e :=
  ⟨rfl, rfl⟩

/-- C6: every throughput report the receiver emits carries the value
`(bytes in interval * 8) / interval duration`, which is non-negative and is
exactly 0 for an interval with zero bytes; and each time a sample is
emitted the interval byte counter and the interval clocks are reset. -/
theorem receive_data_throughput_reports :
    (∀ (t0 : Nat) (inps : List RxInput) (r : RxReport),
      r ∈ (receive_data t0 inps).reports →
        speed_bps r = (r.bytes * 8 : ℚ) / (r.elapsed : ℚ) ∧
        0 ≤ speed_bps r ∧
        (r.bytes = 0 → speed_bps r = 0)) ∧
    (∀ (s : RxState) (t : Nat) (r : RxReport),
      (rxReport s t).2 = some r →
        (rxReport s t).1.total_received_bytes = 0 ∧
        (rxReport s t).1.start_receive_time = t ∧
        (rxReport s t).1.last_report_time = t) := by
  constructor
  · intro t0 inps r hr
    refine ⟨rfl, ?_, ?_⟩
    · unfold speed_bps
      positivity
    · intro h0
      unfold speed_bps
      rw [h0]
      simp
  · intro s t r hr
    unfold rxReport at hr
    split_ifs at hr with h1
    unfold rxReport
    rw [if_pos h1]
    exact ⟨rfl, rfl, rfl⟩

/-- C6 witness: a first silent interval of two time units emits the sample
for zero bytes over two units, whose value is zero. -/
theorem receive_data_throughput_reports_witness :
    speed_bps ⟨0, 2⟩ =
      (((⟨0, 2⟩ : RxReport).bytes * 8 : ℚ) / ((⟨0, 2⟩ : RxReport).elapsed : ℚ)) ∧
    0 ≤ speed_bps ⟨0, 2⟩ ∧
    ((⟨0, 2⟩ : RxReport).bytes = 0 → speed_bps ⟨0, 2⟩ = 0) :=
  receive_data_throughput_reports.1 0 [⟨2, none⟩] ⟨0, 2⟩ (by decide)

/-- C7: the lossy decode of the accumulated buffer never fails and never
lets earlier bytes swallow a valid ASCII tail: whatever precedes it, the
ASCII portion survives verbatim, and a prefix of bare continuation bytes is
dropped entirely. -/
theorem utf8_decode_recovers_ascii (junk t : List Nat)
    (ht : ∀ x ∈ t, x < 0x80) :
    utf8DecodeIgnore (junk ++ t) = utf8DecodeIgnore junk ++ t ∧
    ((∀ x ∈ junk, 0x80 ≤ x ∧ x < 0xC0) → utf8DecodeIgnore (junk ++ t) = t) := by
  have hmain := utf8DecodeIgnore_append_ascii_aux t ht junk.length junk le_rfl
  refine ⟨hmain, ?_⟩
  intro hj
  rw [hmain, utf8DecodeIgnore_cont_junk junk hj]
  rfl

/-- C7 witness: an invalid two-byte sequence of bare continuation bytes
followed by the ASCII text OK decodes to exactly OK. -/
theorem utf8_decode_recovers_ascii_witness :
    utf8DecodeIgnore ([130, 191] ++ [79, 75]) = [79, 75] :=
  (utf8_decode_recovers_ascii [130, 191] [79, 75] (by decide)).2 (by decide)

/-- C8: the receiver starts the receive phase with an empty buffer and a
zero byte counter, and its accumulated buffer consists exactly of the bytes
the channel delivered during the executed receive-phase iterations — no
byte drained during the transmit phase can appear in it. -/
theorem receive_data_phase_isolation (t0 : Nat) (inps : List RxInput) :
    (initState t0).received_data = [] ∧
    (initState t0).total_received_bytes = 0 ∧
    ∃ k, k ≤ inps.length ∧
      (receive_data t0 inps).state.received_data = deliveredBytes (inps.take k) := by
  obtain ⟨h1, h2⟩ := rxRun_buffer_provenance inps (initState t0)
  exact ⟨rfl, rfl, (receive_data t0 inps).steps, by simpa [receive_data] using h2,
    by simpa [receive_data, initState] using h1⟩

/-- C9: the speed expression is evaluated only under the guard
`elapsed_time > 0`: every emitted report has a strictly positive interval
duration; on reachable states (where the interval clocks agree, an
invariant of every run) the reporting branch always fires with a positive
denominator. -/
theorem receive_data_speed_denominator_positive :
    (∀ (t0 : Nat) (inps : List RxInput) (r : RxReport),
      r ∈ (receive_data t0 inps).reports → 0 < r.elapsed) ∧
    (∀ (s : RxState) (t : Nat),
      s.start_receive_time = s.last_report_time →
      1 ≤ t - s.last_report_time →
        (rxReport s t).2 = some ⟨s.total_received_bytes, t - s.start_receive_time⟩ ∧
        0 < t - s.start_receive_time) ∧
    (∀ (t0 : Nat) (inps : List RxInput),
      (receive_data t0 inps).state.start_receive_time =
        (receive_data t0 inps).state.last_report_time) := by
  refine ⟨?_, ?_, ?_⟩
  · intro t0 inps r hr
    exact rxRun_reports_elapsed_pos inps (initState t0) r hr
  · intro s t h1 h2
    exact rxReport_fires s t h1 h2
  · intro t0 inps
    exact rxRun_start_eq_report inps (initState t0) rfl

/-- C9 witness: the report emitted by a single poll at t = 1 has interval
duration 1, which is strictly positive. -/
theorem receive_data_speed_denominator_positive_witness :
    0 < (RxReport.mk 0 1).elapsed :=
  receive_data_speed_denominator_positive.1 0 [⟨1, none⟩] ⟨0, 1⟩ (by decide)

/-- C10: count_bits_in_paragraph returns the total popcount of the code
points, the total of bit length minus popcount (so per character the 1 and
0 tallies sum to the length of the binary representation without leading
zeros), and the character count; for positive code points that length is
characterised by 2 ^ (bitLen - 1) being at most the code point, which is
below 2 ^ bitLen — not the zero count of a fixed 8-bit encoding. -/
theorem count_bits_in_paragraph_spec :
    (∀ s : List Nat,
      count_bits_in_paragraph s =
        ((s.map popcount).sum,
         (s.map (fun c => bitLen c - popcount c)).sum, s.length)) ∧
    (∀ c : Nat, (binRep c).count 1 + (binRep c).count 0 = bitLen c) ∧
    (∀ c : Nat, 0 < c → 2 ^ (bitLen c - 1) ≤ c ∧ c < 2 ^ bitLen c) := by
  refine ⟨?_, ?_, ?_⟩
  · intro s
    rw [count_bits_eq s]
    have e1 : (fun c => (binRep c).count 1) = popcount := funext binRep_count1
    have e2 : (fun c => (binRep c).count 0) = (fun c => bitLen c - popcount c) :=
      funext binRep_count0
    rw [e1, e2]
  · intro c
    have h := count0_add_count1 (binRep c) (binRep_digits c)
    unfold bitLen
    omega
  · intro c hc
    have hb : binRep c = bits c := by
      unfold binRep
      rw [if_neg (by omega)]
    unfold bitLen
    rw [hb]
    exact bits_length_pow c hc

/-- C10 witness: the code point 70 has bit length 7, and indeed 64 is at
most 70, which is below 128. -/
theorem count_bits_in_paragraph_spec_witness :
    2 ^ (bitLen 70 - 1) ≤ 70 ∧ 70 < 2 ^ bitLen 70 :=
  count_bits_in_paragraph_spec.2.2 70 (by decide)
